import Mathlib

/-!
Shallow embedding of the n-queens demo repository (files `exact_cover.py`
and `n_queens.py`) together with proofs about the claims of its
specification.

Conventions of the embedding:
* Python integers are `ℤ`; constraint IDs are therefore `ℤ` and a python
  `set` of IDs is a `Finset ℤ`.
* The `dimod.BinaryQuadraticModel` container is modelled by the `BQM`
  structure below: a total linear-bias map, a total quadratic-bias map
  keyed by the ordered pair the code passes to `add_interaction`
  (the code always passes `(i, j)` with `j < i`), and a scalar offset.
  Absent biases are `0`.  `add_variable` / `add_interaction` are additive,
  exactly as in dimod.
* Iteration over a python `set(problem_set)` is modelled by iterating over
  `problem_set.dedup`; every operation performed in the loops is additive,
  so the resulting model does not depend on the iteration order.
-/

/-- Binary quadratic model: linear biases, quadratic biases (keyed by the
ordered index pair handed to `add_interaction`) and a scalar offset. -/
structure BQM where
  linear : ℕ → ℤ
  quadratic : ℕ × ℕ → ℤ
  offset : ℤ

/-- `bqm.add_variable(v, bias)` of dimod: adds `bias` to the linear bias. -/
def add_variable (b : BQM) (v : ℕ) (bias : ℤ) : BQM :=
  { b with linear := Function.update b.linear v (b.linear v + bias) }

/-- `bqm.add_interaction(u, v, bias)` of dimod: adds `bias` to the
quadratic bias of the pair. -/
def add_interaction (b : BQM) (u v : ℕ) (bias : ℤ) : BQM :=
  { b with quadratic := Function.update b.quadratic (u, v) (b.quadratic (u, v) + bias) }

/-- `BinaryQuadraticModel({}, {}, 0, 'BINARY')`. -/
def emptyBQM : BQM := ⟨fun _ => 0, fun _ => 0, 0⟩

/-- Body of the `for element in problem_set` loop of `exact_cover_bqm`
(`exact_cover.py`, lines 45-54): for each subset index `i` containing
`element`, add linear bias `-1`, then for every earlier index `j` also
containing `element` add quadratic bias `2`. -/
def coverElementStep (subsets : List (Finset ℤ)) (element : ℤ) (bqm : BQM) : BQM :=
  (List.range subsets.length).foldl (fun bqm i =>
    if element ∈ subsets.getD i ∅ then
      (List.range i).foldl (fun bqm j =>
        if element ∈ subsets.getD j ∅ then add_interaction bqm i j 2 else bqm)
        (add_variable bqm i (-1))
    else bqm) bqm

/-- The model built by `exact_cover_bqm` after the duplicate check passed:
the element loop starting from the empty model, then the offset is set to
the number of (distinct) elements. -/
def coverBQM (problem_set : List ℤ) (subsets : List (Finset ℤ)) : BQM :=
  { problem_set.dedup.foldl (fun b e => coverElementStep subsets e b) emptyBQM with
    offset := (problem_set.dedup.length : ℤ) }

/-- `exact_cover_bqm` of `exact_cover.py`: rejects a `problem_set` with
duplicates (`len(set(problem_set)) != len(problem_set)`), otherwise builds
the model. -/
def exact_cover_bqm (problem_set : List ℤ) (subsets : List (Finset ℤ)) :
    Except String BQM :=
  if problem_set.dedup.length ≠ problem_set.length then
    Except.error "problem_set should not contain any duplicates"
  else
    Except.ok (coverBQM problem_set subsets)

/-- `diag = x + y + (2*n - 1)` of `build_subsets`. -/
def diagCell (n x y : ℕ) : ℤ := (x : ℤ) + y + (2 * n - 1)

/-- `anti_diag = (n - 1 - x + y) + (4*n - 4)` of `build_subsets`. -/
def antiDiagCell (n x y : ℕ) : ℤ := ((n : ℤ) - 1 - x + y) + (4 * n - 4)

/-- `subset = {col, row}` with `col = x`, `row = y + n`. -/
def baseCell (n x y : ℕ) : Finset ℤ := {(x : ℤ), (y : ℤ) + n}

/-- The subset after the diagonal range check of `build_subsets`:
`if diag >= min_diag and diag <= max_diag: subset.add(diag)`. -/
def withDiag (n x y : ℕ) : Finset ℤ :=
  if 2 * (n : ℤ) ≤ diagCell n x y ∧ diagCell n x y ≤ 4 * (n : ℤ) - 4 then
    insert (diagCell n x y) (baseCell n x y)
  else baseCell n x y

/-- The complete subset of constraint IDs for board cell `(x, y)`:
the anti-diagonal range check
`if anti_diag >= min_anti_diag and anti_diag <= max_anti_diag` applied on
top of `withDiag`. -/
def cellSubset (n x y : ℕ) : Finset ℤ :=
  if 4 * (n : ℤ) - 3 ≤ antiDiagCell n x y ∧ antiDiagCell n x y ≤ 6 * (n : ℤ) - 7 then
    insert (antiDiagCell n x y) (withDiag n x y)
  else withDiag n x y

/-- `build_subsets` of `n_queens.py`: the nested
`for x in range(n): for y in range(n): subsets.append(...)` loop. -/
def build_subsets (n : ℕ) : List (Finset ℤ) :=
  (List.range n).flatMap (fun x => (List.range n).map (fun y => cellSubset n x y))

/-- `handle_diag_constraints` of `n_queens.py`: for every constraint in
`diag_constraints` and every pair of subset indices `j < i` whose subsets
both contain the constraint, add quadratic bias `2`.  The python argument
is a `set`; it is modelled by a duplicate-free list. -/
def handle_diag_constraints (bqm : BQM) (subsets : List (Finset ℤ))
    (diag_constraints : List ℤ) : BQM :=
  diag_constraints.foldl (fun bqm constraint =>
    (List.range subsets.length).foldl (fun bqm i =>
      if constraint ∈ subsets.getD i ∅ then
        (List.range i).foldl (fun bqm j =>
          if constraint ∈ subsets.getD j ∅ then add_interaction bqm i j 2 else bqm) bqm
      else bqm) bqm) bqm

/-- `count[i]` of `is_valid_solution`: each queen is a `set`, so the sum
of the `Counter`s counts, for an ID `i`, the number of queens whose subset
contains `i`. -/
def countId (solution : List (Finset ℤ)) (i : ℤ) : ℕ :=
  (solution.map (fun queen => if i ∈ queen then 1 else 0)).sum

/-- `is_valid_solution` of `n_queens.py`: the row/column loop
`for i in range(2*n)` requires `count[i] == 1`; the diagonal loop
`for i in range(2*n, 4*n - 6)` requires `count[i] <= 1`.  Note that the
source's diagonal loop really stops at `4*n - 6` (exclusive). -/
def is_valid_solution (n : ℕ) (solution : List (Finset ℤ)) : Bool :=
  ((List.range (2 * n)).all fun i => countId solution (i : ℤ) == 1)
    && ((List.range' (2 * n) (4 * n - 6 - 2 * n)).all fun i =>
          decide (countId solution (i : ℤ) ≤ 1))

/-- Value of a digit string, as accumulated by positional base-10 parsing. -/
def digitsVal (cs : List Char) : ℕ :=
  cs.foldl (fun a c => a * 10 + (c.toNat - 48)) 0

/-- Modelled from the python built-in `int(...)` used by
`get_sanitized_input` (the builtin is not part of this repository):
an optional minus sign followed by at least one decimal digit parses to
the signed value, anything else raises `ValueError` (here: `none`). -/
def pyInt (s : String) : Option ℤ :=
  match s.data with
  | '-' :: cs =>
      if cs ≠ [] ∧ cs.all Char.isDigit then some (-(digitsVal cs : ℤ)) else none
  | cs =>
      if cs ≠ [] ∧ cs.all Char.isDigit then some ((digitsVal cs : ℤ)) else none

/-- `get_sanitized_input` of `n_queens.py`, with standard input modelled
as the list of lines still to be read.  The result pairs the printed
messages with the outcome of the loop: `Except.ok n` when a line parsed
to a positive integer `n` and was returned, and `Except.error` carrying
the uncaught `EOFError` that python's `input()` raises when the input
lines run out while the loop is still re-prompting (the `try` block only
catches `ValueError`). -/
def get_sanitized_input : List String → List String × Except String ℤ
  | [] => (["Enter the number of queens to place (n > 0):"],
           Except.error "EOFError: EOF when reading a line")
  | line :: rest =>
    match pyInt line with
    | none =>
        let r := get_sanitized_input rest
        ("Enter the number of queens to place (n > 0):"
          :: "Input type must be int." :: r.1, r.2)
    | some n =>
        if n ≤ 0 then
          let r := get_sanitized_input rest
          ("Enter the number of queens to place (n > 0):"
            :: "Input must be greater than 0." :: r.1, r.2)
        else if 200 ≤ n then
          (["Enter the number of queens to place (n > 0):",
            "Problems with large n will run very slowly."], Except.ok n)
        else
          (["Enter the number of queens to place (n > 0):"], Except.ok n)

/-- The queen drawn for one subset in `plot_chessboard`: starting from
`x = y = -1`, every constraint `< n` overwrites `x` and every constraint
in `[n, 2*n)` overwrites `y` with `abs(c - (2*n - 1))`; the queen is drawn
only if both were set.  Python's set iteration order is modelled as
ascending order. -/
def queenPosition (n : ℕ) (subset : Finset ℤ) : Option (ℤ × ℤ) :=
  let p := (subset.sort (· ≤ ·)).foldl (fun (xy : ℤ × ℤ) c =>
    if c < (n : ℤ) then (c, xy.2)
    else if (n : ℤ) ≤ c ∧ c < 2 * n then (xy.1, |c - (2 * (n : ℤ) - 1)|)
    else xy) (-1, -1)
  if p.1 ≠ -1 ∧ p.2 ≠ -1 then some p else none

/-- `plot_chessboard` of `n_queens.py`.  Its body iterates the
module-level global `solution`, never the `queens` parameter; the global
environment is modelled by the explicit `solution` argument (`none` when
no global named `solution` is defined, in which case python raises
`NameError`).  The observable result is the list of drawn queen positions
and the saved file name. -/
def plot_chessboard (n : ℕ) (queens : List (Finset ℤ))
    (solution : Option (List (Finset ℤ))) : Except String (List (ℤ × ℤ) × String) :=
  match solution with
  | none => Except.error "NameError: name 'solution' is not defined"
  | some sol => Except.ok (sol.filterMap (queenPosition n), toString n ++ "-queens-solution.png")

/-- Number of selected subsets containing element `e` under the 0/1
assignment `σ` (variables are the indices of `subsets`). -/
def coverCount (subsets : List (Finset ℤ)) (σ : ℕ → Bool) (e : ℤ) : ℕ :=
  ((Finset.range subsets.length).filter
    (fun i => σ i ∧ e ∈ subsets.getD i ∅)).card

/-- Energy of a binary quadratic model on `m` variables under the 0/1
assignment `σ`: offset plus the selected linear biases plus the selected
pairwise quadratic biases. -/
def energy (b : BQM) (m : ℕ) (σ : ℕ → Bool) : ℤ :=
  b.offset + (∑ i ∈ Finset.range m, if σ i then b.linear i else 0)
    + (∑ i ∈ Finset.range m, ∑ j ∈ Finset.range i,
        if σ i ∧ σ j then b.quadratic (i, j) else 0)

/-! ### Pointwise description of the model-building folds -/

theorem add_variable_linear (b : BQM) (v : ℕ) (bias : ℤ) (i : ℕ) :
    (add_variable b v bias).linear i = if i = v then b.linear v + bias else b.linear i := by
  simp [add_variable, Function.update_apply]

theorem add_interaction_quadratic (b : BQM) (u v : ℕ) (bias : ℤ) (p : ℕ × ℕ) :
    (add_interaction b u v bias).quadratic p =
      if p = (u, v) then b.quadratic (u, v) + bias else b.quadratic p := by
  simp [add_interaction, Function.update_apply]

theorem innerFold_linear (subsets : List (Finset ℤ)) (e : ℤ) (i k : ℕ) (b : BQM) :
    ((List.range k).foldl (fun bqm j =>
        if e ∈ subsets.getD j ∅ then add_interaction bqm i j 2 else bqm) b).linear
      = b.linear := by
  induction k with
  | zero => rfl
  | succ k ih =>
    rw [List.range_succ, List.foldl_append, List.foldl_cons, List.foldl_nil]
    split <;> exact ih

theorem innerFold_offset (subsets : List (Finset ℤ)) (e : ℤ) (i k : ℕ) (b : BQM) :
    ((List.range k).foldl (fun bqm j =>
        if e ∈ subsets.getD j ∅ then add_interaction bqm i j 2 else bqm) b).offset
      = b.offset := by
  induction k with
  | zero => rfl
  | succ k ih =>
    rw [List.range_succ, List.foldl_append, List.foldl_cons, List.foldl_nil]
    split <;> exact ih

theorem innerFold_quadratic (subsets : List (Finset ℤ)) (e : ℤ) (i k : ℕ) (b : BQM)
    (p : ℕ × ℕ) :
    ((List.range k).foldl (fun bqm j =>
        if e ∈ subsets.getD j ∅ then add_interaction bqm i j 2 else bqm) b).quadratic p
      = b.quadratic p
        + (if p.1 = i ∧ p.2 < k ∧ e ∈ subsets.getD p.2 ∅ then 2 else 0) := by
  induction k with
  | zero => simp
  | succ k ih =>
    rw [List.range_succ, List.foldl_append, List.foldl_cons, List.foldl_nil]
    by_cases he : e ∈ subsets.getD k ∅
    · rw [if_pos he]
      by_cases hp : p = (i, k)
      · subst hp
        rw [add_interaction_quadratic, if_pos rfl, ih,
          if_neg (fun h => Nat.lt_irrefl k h.2.1),
          if_pos (show (i, k).1 = i ∧ (i, k).2 < k + 1 ∧ e ∈ subsets.getD (i, k).2 ∅ from
            ⟨rfl, Nat.lt_succ_self k, he⟩)]
        ring
      · rw [add_interaction_quadratic, if_neg hp, ih]
        refine congrArg (b.quadratic p + ·) (if_congr ?_ rfl rfl)
        constructor
        · rintro ⟨h1, h2, h3⟩; exact ⟨h1, Nat.lt_succ_of_lt h2, h3⟩
        · rintro ⟨h1, h2, h3⟩
          refine ⟨h1, ?_, h3⟩
          rcases Nat.lt_succ_iff_lt_or_eq.1 h2 with h | h
          · exact h
          · exact absurd (Prod.ext h1 h) hp
    · rw [if_neg he, ih]
      refine congrArg (b.quadratic p + ·) (if_congr ?_ rfl rfl)
      constructor
      · rintro ⟨h1, h2, h3⟩; exact ⟨h1, Nat.lt_succ_of_lt h2, h3⟩
      · rintro ⟨h1, h2, h3⟩
        refine ⟨h1, ?_, h3⟩
        rcases Nat.lt_succ_iff_lt_or_eq.1 h2 with h | h
        · exact h
        · exact absurd (h ▸ h3) he

theorem add_variable_quadratic (b : BQM) (v : ℕ) (bias : ℤ) :
    (add_variable b v bias).quadratic = b.quadratic := rfl

theorem add_variable_offset (b : BQM) (v : ℕ) (bias : ℤ) :
    (add_variable b v bias).offset = b.offset := rfl

theorem and_left_lt_succ {a k : ℕ} (hak : a ≠ k) (R : Prop) :
    (a < k ∧ R) ↔ (a < k + 1 ∧ R) := by
  constructor
  · rintro ⟨h, hr⟩; exact ⟨Nat.lt_succ_of_lt h, hr⟩
  · rintro ⟨h, hr⟩
    rcases Nat.lt_succ_iff_lt_or_eq.1 h with h | h
    · exact ⟨h, hr⟩
    · exact absurd h hak

theorem coverMid_offset (subsets : List (Finset ℤ)) (e : ℤ) (k : ℕ) (b : BQM) :
    ((List.range k).foldl (fun bqm i =>
        if e ∈ subsets.getD i ∅ then
          (List.range i).foldl (fun bqm j =>
            if e ∈ subsets.getD j ∅ then add_interaction bqm i j 2 else bqm)
            (add_variable bqm i (-1))
        else bqm) b).offset = b.offset := by
  induction k with
  | zero => rfl
  | succ k ih =>
    rw [List.range_succ, List.foldl_append, List.foldl_cons, List.foldl_nil]
    by_cases he : e ∈ subsets.getD k ∅
    · rw [if_pos he, innerFold_offset]
      exact ih
    · rw [if_neg he]; exact ih

theorem coverMid_linear (subsets : List (Finset ℤ)) (e : ℤ) (k : ℕ) (b : BQM) (i : ℕ) :
    ((List.range k).foldl (fun bqm i =>
        if e ∈ subsets.getD i ∅ then
          (List.range i).foldl (fun bqm j =>
            if e ∈ subsets.getD j ∅ then add_interaction bqm i j 2 else bqm)
            (add_variable bqm i (-1))
        else bqm) b).linear i
      = b.linear i + (if i < k ∧ e ∈ subsets.getD i ∅ then -1 else 0) := by
  induction k with
  | zero => simp
  | succ k ih =>
    rw [List.range_succ, List.foldl_append, List.foldl_cons, List.foldl_nil]
    by_cases he : e ∈ subsets.getD k ∅
    · rw [if_pos he, innerFold_linear, add_variable_linear]
      by_cases hik : i = k
      · subst hik
        rw [if_pos rfl, ih,
          if_neg (show ¬(i < i ∧ e ∈ subsets.getD i ∅) from fun h => Nat.lt_irrefl i h.1),
          if_pos (show i < i + 1 ∧ e ∈ subsets.getD i ∅ from ⟨Nat.lt_succ_self i, he⟩)]
        ring
      · rw [if_neg hik, ih]
        exact congrArg (b.linear i + ·) (if_congr (and_left_lt_succ hik _) rfl rfl)
    · rw [if_neg he, ih]
      by_cases hik : i = k
      · subst hik
        rw [if_neg (show ¬(i < i ∧ e ∈ subsets.getD i ∅) from fun h => Nat.lt_irrefl i h.1),
          if_neg (show ¬(i < i + 1 ∧ e ∈ subsets.getD i ∅) from fun h => he h.2)]
      · exact congrArg (b.linear i + ·) (if_congr (and_left_lt_succ hik _) rfl rfl)

theorem coverMid_quadratic (subsets : List (Finset ℤ)) (e : ℤ) (k : ℕ) (b : BQM)
    (p : ℕ × ℕ) :
    ((List.range k).foldl (fun bqm i =>
        if e ∈ subsets.getD i ∅ then
          (List.range i).foldl (fun bqm j =>
            if e ∈ subsets.getD j ∅ then add_interaction bqm i j 2 else bqm)
            (add_variable bqm i (-1))
        else bqm) b).quadratic p
      = b.quadratic p
        + (if p.1 < k ∧ e ∈ subsets.getD p.1 ∅ ∧ p.2 < p.1 ∧ e ∈ subsets.getD p.2 ∅
           then 2 else 0) := by
  induction k with
  | zero => simp
  | succ k ih =>
    rw [List.range_succ, List.foldl_append, List.foldl_cons, List.foldl_nil]
    rcases p with ⟨a, c⟩
    by_cases he : e ∈ subsets.getD k ∅
    · rw [if_pos he, innerFold_quadratic, add_variable_quadratic, ih]
      by_cases hak : a = k
      · subst hak
        by_cases hm2 : e ∈ subsets.getD c ∅
        · rw [if_neg (show ¬((a, c).1 < a ∧ e ∈ subsets.getD (a, c).1 ∅ ∧ (a, c).2 < (a, c).1
              ∧ e ∈ subsets.getD (a, c).2 ∅) from fun h => Nat.lt_irrefl a h.1)]
          by_cases hca : c < a
          · rw [if_pos (show (a, c).1 = a ∧ (a, c).2 < a ∧ e ∈ subsets.getD (a, c).2 ∅ from
                ⟨rfl, hca, hm2⟩),
              if_pos (show (a, c).1 < a + 1 ∧ e ∈ subsets.getD (a, c).1 ∅ ∧ (a, c).2 < (a, c).1
                ∧ e ∈ subsets.getD (a, c).2 ∅ from ⟨Nat.lt_succ_self a, he, hca, hm2⟩)]
            ring
          · rw [if_neg (show ¬((a, c).1 = a ∧ (a, c).2 < a ∧ e ∈ subsets.getD (a, c).2 ∅) from
                fun h => hca h.2.1),
              if_neg (show ¬((a, c).1 < a + 1 ∧ e ∈ subsets.getD (a, c).1 ∅ ∧ (a, c).2 < (a, c).1
                ∧ e ∈ subsets.getD (a, c).2 ∅) from fun h => hca h.2.2.1)]
            ring
        · rw [if_neg (show ¬((a, c).1 < a ∧ e ∈ subsets.getD (a, c).1 ∅ ∧ (a, c).2 < (a, c).1
              ∧ e ∈ subsets.getD (a, c).2 ∅) from fun h => Nat.lt_irrefl a h.1),
            if_neg (show ¬((a, c).1 = a ∧ (a, c).2 < a ∧ e ∈ subsets.getD (a, c).2 ∅) from
              fun h => hm2 h.2.2),
            if_neg (show ¬((a, c).1 < a + 1 ∧ e ∈ subsets.getD (a, c).1 ∅ ∧ (a, c).2 < (a, c).1
              ∧ e ∈ subsets.getD (a, c).2 ∅) from fun h => hm2 h.2.2.2)]
          ring
      · rw [if_neg (show ¬((a, c).1 = k ∧ (a, c).2 < k ∧ e ∈ subsets.getD (a, c).2 ∅) from
            fun h => hak h.1), add_zero]
        exact congrArg (b.quadratic (a, c) + ·) (if_congr (and_left_lt_succ hak _) rfl rfl)
    · rw [if_neg he, ih]
      by_cases hak : a = k
      · subst hak
        rw [if_neg (show ¬((a, c).1 < a ∧ e ∈ subsets.getD (a, c).1 ∅ ∧ (a, c).2 < (a, c).1
            ∧ e ∈ subsets.getD (a, c).2 ∅) from fun h => Nat.lt_irrefl a h.1),
          if_neg (show ¬((a, c).1 < a + 1 ∧ e ∈ subsets.getD (a, c).1 ∅ ∧ (a, c).2 < (a, c).1
            ∧ e ∈ subsets.getD (a, c).2 ∅) from fun h => he h.2.1)]
      · exact congrArg (b.quadratic (a, c) + ·) (if_congr (and_left_lt_succ hak _) rfl rfl)

theorem coverStep_offset (subsets : List (Finset ℤ)) (e : ℤ) (b : BQM) :
    (coverElementStep subsets e b).offset = b.offset :=
  coverMid_offset subsets e subsets.length b

theorem coverStep_linear (subsets : List (Finset ℤ)) (e : ℤ) (b : BQM) (i : ℕ) :
    (coverElementStep subsets e b).linear i
      = b.linear i + (if i < subsets.length ∧ e ∈ subsets.getD i ∅ then -1 else 0) :=
  coverMid_linear subsets e subsets.length b i

theorem coverStep_quadratic (subsets : List (Finset ℤ)) (e : ℤ) (b : BQM) (p : ℕ × ℕ) :
    (coverElementStep subsets e b).quadratic p
      = b.quadratic p
        + (if p.1 < subsets.length ∧ e ∈ subsets.getD p.1 ∅ ∧ p.2 < p.1
              ∧ e ∈ subsets.getD p.2 ∅
           then 2 else 0) :=
  coverMid_quadratic subsets e subsets.length b p

theorem coverFold_offset (subsets : List (Finset ℤ)) (es : List ℤ) (b : BQM) :
    (es.foldl (fun b e => coverElementStep subsets e b) b).offset = b.offset := by
  induction es generalizing b with
  | nil => rfl
  | cons e es ih => rw [List.foldl_cons, ih, coverStep_offset]

theorem coverFold_linear (subsets : List (Finset ℤ)) (es : List ℤ) (b : BQM) (i : ℕ) :
    (es.foldl (fun b e => coverElementStep subsets e b) b).linear i
      = b.linear i
        - (es.countP (fun e => decide (i < subsets.length ∧ e ∈ subsets.getD i ∅)) : ℤ) := by
  induction es generalizing b with
  | nil => simp
  | cons e es ih =>
    rw [List.foldl_cons, ih, coverStep_linear, List.countP_cons]
    by_cases h : i < subsets.length ∧ e ∈ subsets.getD i ∅
    · rw [if_pos h, decide_eq_true h, if_pos rfl]
      push_cast
      ring
    · rw [if_neg h, decide_eq_false h, if_neg Bool.false_ne_true]
      push_cast
      ring

theorem coverFold_quadratic (subsets : List (Finset ℤ)) (es : List ℤ) (b : BQM)
    (p : ℕ × ℕ) :
    (es.foldl (fun b e => coverElementStep subsets e b) b).quadratic p
      = b.quadratic p
        + 2 * (es.countP (fun e => decide (p.1 < subsets.length ∧ e ∈ subsets.getD p.1 ∅
            ∧ p.2 < p.1 ∧ e ∈ subsets.getD p.2 ∅)) : ℤ) := by
  induction es generalizing b with
  | nil => simp
  | cons e es ih =>
    rw [List.foldl_cons, ih, coverStep_quadratic, List.countP_cons]
    by_cases h : p.1 < subsets.length ∧ e ∈ subsets.getD p.1 ∅ ∧ p.2 < p.1
        ∧ e ∈ subsets.getD p.2 ∅
    · rw [if_pos h, decide_eq_true h, if_pos rfl]
      push_cast
      ring
    · rw [if_neg h, decide_eq_false h, if_neg Bool.false_ne_true]
      push_cast
      ring

theorem coverBQM_offset (ps : List ℤ) (subsets : List (Finset ℤ)) :
    (coverBQM ps subsets).offset = (ps.dedup.length : ℤ) := rfl

theorem coverBQM_linear (ps : List ℤ) (subsets : List (Finset ℤ)) (i : ℕ) :
    (coverBQM ps subsets).linear i
      = -(ps.dedup.countP
            (fun e => decide (i < subsets.length ∧ e ∈ subsets.getD i ∅)) : ℤ) := by
  show (ps.dedup.foldl (fun b e => coverElementStep subsets e b) emptyBQM).linear i = _
  rw [coverFold_linear]
  show 0 - _ = _
  ring

theorem coverBQM_quadratic (ps : List ℤ) (subsets : List (Finset ℤ)) (p : ℕ × ℕ) :
    (coverBQM ps subsets).quadratic p
      = 2 * (ps.dedup.countP (fun e => decide (p.1 < subsets.length
          ∧ e ∈ subsets.getD p.1 ∅ ∧ p.2 < p.1 ∧ e ∈ subsets.getD p.2 ∅)) : ℤ) := by
  show (ps.dedup.foldl (fun b e => coverElementStep subsets e b) emptyBQM).quadratic p = _
  rw [coverFold_quadratic]
  show 0 + _ = _
  ring

theorem diagMid_offset (subsets : List (Finset ℤ)) (c : ℤ) (k : ℕ) (b : BQM) :
    ((List.range k).foldl (fun bqm i =>
        if c ∈ subsets.getD i ∅ then
          (List.range i).foldl (fun bqm j =>
            if c ∈ subsets.getD j ∅ then add_interaction bqm i j 2 else bqm) bqm
        else bqm) b).offset = b.offset := by
  induction k with
  | zero => rfl
  | succ k ih =>
    rw [List.range_succ, List.foldl_append, List.foldl_cons, List.foldl_nil]
    by_cases he : c ∈ subsets.getD k ∅
    · rw [if_pos he, innerFold_offset]; exact ih
    · rw [if_neg he]; exact ih

theorem diagMid_linear (subsets : List (Finset ℤ)) (c : ℤ) (k : ℕ) (b : BQM) :
    ((List.range k).foldl (fun bqm i =>
        if c ∈ subsets.getD i ∅ then
          (List.range i).foldl (fun bqm j =>
            if c ∈ subsets.getD j ∅ then add_interaction bqm i j 2 else bqm) bqm
        else bqm) b).linear = b.linear := by
  induction k with
  | zero => rfl
  | succ k ih =>
    rw [List.range_succ, List.foldl_append, List.foldl_cons, List.foldl_nil]
    by_cases he : c ∈ subsets.getD k ∅
    · rw [if_pos he, innerFold_linear]; exact ih
    · rw [if_neg he]; exact ih

theorem diagMid_quadratic (subsets : List (Finset ℤ)) (e : ℤ) (k : ℕ) (b : BQM)
    (p : ℕ × ℕ) :
    ((List.range k).foldl (fun bqm i =>
        if e ∈ subsets.getD i ∅ then
          (List.range i).foldl (fun bqm j =>
            if e ∈ subsets.getD j ∅ then add_interaction bqm i j 2 else bqm) bqm
        else bqm) b).quadratic p
      = b.quadratic p
        + (if p.1 < k ∧ e ∈ subsets.getD p.1 ∅ ∧ p.2 < p.1 ∧ e ∈ subsets.getD p.2 ∅
           then 2 else 0) := by
  induction k with
  | zero => simp
  | succ k ih =>
    rw [List.range_succ, List.foldl_append, List.foldl_cons, List.foldl_nil]
    rcases p with ⟨a, c⟩
    by_cases he : e ∈ subsets.getD k ∅
    · rw [if_pos he, innerFold_quadratic, ih]
      by_cases hak : a = k
      · subst hak
        by_cases hm2 : e ∈ subsets.getD c ∅
        · rw [if_neg (show ¬((a, c).1 < a ∧ e ∈ subsets.getD (a, c).1 ∅ ∧ (a, c).2 < (a, c).1
              ∧ e ∈ subsets.getD (a, c).2 ∅) from fun h => Nat.lt_irrefl a h.1)]
          by_cases hca : c < a
          · rw [if_pos (show (a, c).1 = a ∧ (a, c).2 < a ∧ e ∈ subsets.getD (a, c).2 ∅ from
                ⟨rfl, hca, hm2⟩),
              if_pos (show (a, c).1 < a + 1 ∧ e ∈ subsets.getD (a, c).1 ∅ ∧ (a, c).2 < (a, c).1
                ∧ e ∈ subsets.getD (a, c).2 ∅ from ⟨Nat.lt_succ_self a, he, hca, hm2⟩)]
            ring
          · rw [if_neg (show ¬((a, c).1 = a ∧ (a, c).2 < a ∧ e ∈ subsets.getD (a, c).2 ∅) from
                fun h => hca h.2.1),
              if_neg (show ¬((a, c).1 < a + 1 ∧ e ∈ subsets.getD (a, c).1 ∅ ∧ (a, c).2 < (a, c).1
                ∧ e ∈ subsets.getD (a, c).2 ∅) from fun h => hca h.2.2.1)]
            ring
        · rw [if_neg (show ¬((a, c).1 < a ∧ e ∈ subsets.getD (a, c).1 ∅ ∧ (a, c).2 < (a, c).1
              ∧ e ∈ subsets.getD (a, c).2 ∅) from fun h => Nat.lt_irrefl a h.1),
            if_neg (show ¬((a, c).1 = a ∧ (a, c).2 < a ∧ e ∈ subsets.getD (a, c).2 ∅) from
              fun h => hm2 h.2.2),
            if_neg (show ¬((a, c).1 < a + 1 ∧ e ∈ subsets.getD (a, c).1 ∅ ∧ (a, c).2 < (a, c).1
              ∧ e ∈ subsets.getD (a, c).2 ∅) from fun h => hm2 h.2.2.2)]
          ring
      · rw [if_neg (show ¬((a, c).1 = k ∧ (a, c).2 < k ∧ e ∈ subsets.getD (a, c).2 ∅) from
            fun h => hak h.1), add_zero]
        exact congrArg (b.quadratic (a, c) + ·) (if_congr (and_left_lt_succ hak _) rfl rfl)
    · rw [if_neg he, ih]
      by_cases hak : a = k
      · subst hak
        rw [if_neg (show ¬((a, c).1 < a ∧ e ∈ subsets.getD (a, c).1 ∅ ∧ (a, c).2 < (a, c).1
            ∧ e ∈ subsets.getD (a, c).2 ∅) from fun h => Nat.lt_irrefl a h.1),
          if_neg (show ¬((a, c).1 < a + 1 ∧ e ∈ subsets.getD (a, c).1 ∅ ∧ (a, c).2 < (a, c).1
            ∧ e ∈ subsets.getD (a, c).2 ∅) from fun h => he h.2.1)]
      · exact congrArg (b.quadratic (a, c) + ·) (if_congr (and_left_lt_succ hak _) rfl rfl)

theorem handle_diag_offset (b : BQM) (subsets : List (Finset ℤ)) (ds : List ℤ) :
    (handle_diag_constraints b subsets ds).offset = b.offset := by
  induction ds generalizing b with
  | nil => rfl
  | cons c ds ih =>
    have h1 : handle_diag_constraints b subsets (c :: ds)
        = handle_diag_constraints ((List.range subsets.length).foldl (fun bqm i =>
            if c ∈ subsets.getD i ∅ then
              (List.range i).foldl (fun bqm j =>
                if c ∈ subsets.getD j ∅ then add_interaction bqm i j 2 else bqm) bqm
            else bqm) b) subsets ds := rfl
    rw [h1, ih, diagMid_offset]

theorem handle_diag_linear (b : BQM) (subsets : List (Finset ℤ)) (ds : List ℤ) :
    (handle_diag_constraints b subsets ds).linear = b.linear := by
  induction ds generalizing b with
  | nil => rfl
  | cons c ds ih =>
    have h1 : handle_diag_constraints b subsets (c :: ds)
        = handle_diag_constraints ((List.range subsets.length).foldl (fun bqm i =>
            if c ∈ subsets.getD i ∅ then
              (List.range i).foldl (fun bqm j =>
                if c ∈ subsets.getD j ∅ then add_interaction bqm i j 2 else bqm) bqm
            else bqm) b) subsets ds := rfl
    rw [h1, ih, diagMid_linear]

theorem handle_diag_quadratic (b : BQM) (subsets : List (Finset ℤ)) (ds : List ℤ)
    (p : ℕ × ℕ) :
    (handle_diag_constraints b subsets ds).quadratic p
      = b.quadratic p
        + 2 * (ds.countP (fun c => decide (p.1 < subsets.length ∧ c ∈ subsets.getD p.1 ∅
            ∧ p.2 < p.1 ∧ c ∈ subsets.getD p.2 ∅)) : ℤ) := by
  induction ds generalizing b with
  | nil => simp [handle_diag_constraints]
  | cons c ds ih =>
    have h1 : handle_diag_constraints b subsets (c :: ds)
        = handle_diag_constraints ((List.range subsets.length).foldl (fun bqm i =>
            if c ∈ subsets.getD i ∅ then
              (List.range i).foldl (fun bqm j =>
                if c ∈ subsets.getD j ∅ then add_interaction bqm i j 2 else bqm) bqm
            else bqm) b) subsets ds := rfl
    rw [h1, ih, diagMid_quadratic, List.countP_cons]
    by_cases h : p.1 < subsets.length ∧ c ∈ subsets.getD p.1 ∅ ∧ p.2 < p.1
        ∧ c ∈ subsets.getD p.2 ∅
    · rw [if_pos h, decide_eq_true h, if_pos rfl]
      push_cast
      ring
    · rw [if_neg h, decide_eq_false h, if_neg Bool.false_ne_true]
      push_cast
      ring

/-! ### Counting lemmas for the ground-state analysis -/

theorem countP_dedup_card (l : List ℤ) (hl : l.Nodup) (P : ℤ → Prop) [DecidablePred P] :
    l.countP (fun e => decide (P e)) = (l.toFinset.filter P).card := by
  induction l with
  | nil => simp
  | cons a l ih =>
    rcases List.nodup_cons.1 hl with ⟨ha, hl'⟩
    rw [List.countP_cons, List.toFinset_cons, Finset.filter_insert]
    by_cases hp : P a
    · rw [decide_eq_true hp, if_pos rfl, if_pos hp,
        Finset.card_insert_of_not_mem
          (fun hmem => ha (List.mem_toFinset.1 (Finset.mem_of_mem_filter a hmem))),
        ih hl']
    · rw [decide_eq_false hp, if_neg Bool.false_ne_true, if_neg hp, ih hl', add_zero]

theorem dedup_toFinset (l : List ℤ) : l.dedup.toFinset = l.toFinset := by
  apply Finset.ext
  intro a
  rw [List.mem_toFinset, List.mem_toFinset, List.mem_dedup]

theorem coverCount_cast (subsets : List (Finset ℤ)) (σ : ℕ → Bool) (e : ℤ) :
    ((coverCount subsets σ e : ℕ) : ℤ)
      = ∑ i ∈ Finset.range subsets.length,
          (if σ i ∧ e ∈ subsets.getD i ∅ then (1 : ℤ) else 0) :=
  Finset.natCast_card_filter _ _

theorem double_range_count (m : ℕ) (T : Finset ℕ) (hT : T ⊆ Finset.range m) :
    (∑ i ∈ Finset.range m, ∑ j ∈ Finset.range i, (if i ∈ T ∧ j ∈ T then (1 : ℤ) else 0))
      = (((T ×ˢ T).filter fun p => p.2 < p.1).card : ℤ) := by
  have key : ∀ i, (∑ j ∈ Finset.range i, (if i ∈ T ∧ j ∈ T then (1 : ℤ) else 0))
      = if i ∈ T then (∑ j ∈ T, if j < i then (1 : ℤ) else 0) else 0 := by
    intro i
    by_cases hi : i ∈ T
    · rw [if_pos hi]
      have hfl : (Finset.range i).filter (· ∈ T) = T.filter (· < i) := by
        apply Finset.ext
        intro j
        simp only [Finset.mem_filter, Finset.mem_range]
        exact ⟨fun h => ⟨h.2, h.1⟩, fun h => ⟨h.2, h.1⟩⟩
      calc ∑ j ∈ Finset.range i, (if i ∈ T ∧ j ∈ T then (1 : ℤ) else 0)
          = ∑ j ∈ Finset.range i, (if j ∈ T then (1 : ℤ) else 0) :=
            Finset.sum_congr rfl
              (fun j _ => if_congr ⟨fun h => h.2, fun h => ⟨hi, h⟩⟩ rfl rfl)
        _ = (((Finset.range i).filter (· ∈ T)).card : ℤ) := Finset.sum_boole _ _
        _ = ((T.filter (· < i)).card : ℤ) := by rw [hfl]
        _ = ∑ j ∈ T, if j < i then (1 : ℤ) else 0 := (Finset.sum_boole _ _).symm
    · rw [if_neg hi]
      exact Finset.sum_eq_zero (fun j _ => if_neg (fun h => hi h.1))
  rw [Finset.sum_congr rfl (fun i _ => key i), ← Finset.sum_filter]
  have hfT : (Finset.range m).filter (· ∈ T) = T := by
    apply Finset.ext
    intro i
    simp only [Finset.mem_filter, Finset.mem_range]
    exact ⟨fun h => h.2, fun h => ⟨Finset.mem_range.1 (hT h), h⟩⟩
  rw [hfT, Finset.natCast_card_filter, Finset.sum_product]

theorem two_mul_lt_pairs (T : Finset ℕ) :
    2 * ((T ×ˢ T).filter fun p => p.2 < p.1).card = T.card * T.card - T.card := by
  have hswap : ((T ×ˢ T).filter fun p => p.2 < p.1).card
      = ((T ×ˢ T).filter fun p => p.1 < p.2).card := by
    apply Finset.card_nbij' Prod.swap Prod.swap
    · intro p hp
      rcases Finset.mem_filter.1 hp with ⟨hmem, hlt⟩
      rcases Finset.mem_product.1 hmem with ⟨h1, h2⟩
      exact Finset.mem_filter.2 ⟨Finset.mem_product.2 ⟨h2, h1⟩, hlt⟩
    · intro p hp
      rcases Finset.mem_filter.1 hp with ⟨hmem, hlt⟩
      rcases Finset.mem_product.1 hmem with ⟨h1, h2⟩
      exact Finset.mem_filter.2 ⟨Finset.mem_product.2 ⟨h2, h1⟩, hlt⟩
    · intro p _; exact Prod.swap_swap p
    · intro p _; exact Prod.swap_swap p
  have hdisj : Disjoint ((T ×ˢ T).filter fun p => p.2 < p.1)
      ((T ×ˢ T).filter fun p => p.1 < p.2) := by
    apply Finset.disjoint_left.2
    intro p hp hq
    have h1 := (Finset.mem_filter.1 hp).2
    have h2 := (Finset.mem_filter.1 hq).2
    omega
  have hunion : ((T ×ˢ T).filter fun p => p.2 < p.1) ∪ ((T ×ˢ T).filter fun p => p.1 < p.2)
      = T.offDiag := by
    apply Finset.ext
    intro p
    simp only [Finset.mem_union, Finset.mem_filter, Finset.mem_offDiag, Finset.mem_product]
    constructor
    · rintro (⟨⟨h1, h2⟩, h3⟩ | ⟨⟨h1, h2⟩, h3⟩)
      · exact ⟨h1, h2, fun h => by omega⟩
      · exact ⟨h1, h2, fun h => by omega⟩
    · rintro ⟨h1, h2, h3⟩
      rcases lt_or_gt_of_ne h3 with h | h
      · exact Or.inr ⟨⟨h1, h2⟩, h⟩
      · exact Or.inl ⟨⟨h1, h2⟩, h⟩
  have hcard := Finset.card_union_of_disjoint hdisj
  rw [hunion, Finset.offDiag_card] at hcard
  rw [two_mul]
  nth_rewrite 2 [hswap]
  exact hcard.symm ▸ rfl

theorem two_mul_lt_pairs_int (T : Finset ℕ) :
    (2 : ℤ) * (((T ×ˢ T).filter fun p => p.2 < p.1).card : ℤ)
      = (T.card : ℤ) * T.card - T.card := by
  have h := two_mul_lt_pairs T
  have hle : T.card ≤ T.card * T.card := by
    rcases Nat.eq_zero_or_pos T.card with h0 | h0
    · simp [h0]
    · calc T.card = 1 * T.card := (one_mul _).symm
        _ ≤ T.card * T.card := Nat.mul_le_mul_right _ h0
  calc (2 : ℤ) * (((T ×ˢ T).filter fun p => p.2 < p.1).card : ℤ)
      = ((2 * ((T ×ˢ T).filter fun p => p.2 < p.1).card : ℕ) : ℤ) := by push_cast; ring
    _ = ((T.card * T.card - T.card : ℕ) : ℤ) := by exact_mod_cast congrArg Nat.cast h
    _ = (T.card : ℤ) * T.card - T.card := by rw [Nat.cast_sub hle]; push_cast; ring

theorem coverBQM_offset_sum (ps : List ℤ) (subsets : List (Finset ℤ)) :
    (coverBQM ps subsets).offset = ∑ _e ∈ ps.toFinset, (1 : ℤ) := by
  rw [coverBQM_offset, Finset.sum_const, nsmul_eq_mul, mul_one]
  norm_cast

theorem coverBQM_linear_sum (ps : List ℤ) (subsets : List (Finset ℤ)) (σ : ℕ → Bool) :
    (∑ i ∈ Finset.range subsets.length, if σ i then (coverBQM ps subsets).linear i else 0)
      = ∑ e ∈ ps.toFinset, -((coverCount subsets σ e : ℕ) : ℤ) := by
  have step1 : ∀ i ∈ Finset.range subsets.length,
      (if σ i then (coverBQM ps subsets).linear i else 0)
        = ∑ e ∈ ps.toFinset, (if σ i ∧ e ∈ subsets.getD i ∅ then (-1 : ℤ) else 0) := by
    intro i hi
    have hilt : i < subsets.length := Finset.mem_range.1 hi
    by_cases hσ : σ i = true
    · rw [if_pos hσ, coverBQM_linear]
      have hcong : ps.dedup.countP
            (fun e => decide (i < subsets.length ∧ e ∈ subsets.getD i ∅))
          = ps.dedup.countP (fun e => decide (e ∈ subsets.getD i ∅)) := by
        apply List.countP_congr
        intro a _
        by_cases hm : a ∈ subsets.getD i ∅
        · rw [decide_eq_true (⟨hilt, hm⟩ : i < subsets.length ∧ a ∈ subsets.getD i ∅),
            decide_eq_true hm]
        · rw [decide_eq_false (fun h => hm h.2), decide_eq_false hm]
      rw [hcong, countP_dedup_card _ (List.nodup_dedup ps) (fun e => e ∈ subsets.getD i ∅),
        dedup_toFinset]
      calc -(((ps.toFinset.filter (fun e => e ∈ subsets.getD i ∅)).card : ℕ) : ℤ)
          = -(∑ e ∈ ps.toFinset, if e ∈ subsets.getD i ∅ then (1 : ℤ) else 0) := by
            rw [Finset.natCast_card_filter]
        _ = ∑ e ∈ ps.toFinset, -(if e ∈ subsets.getD i ∅ then (1 : ℤ) else 0) := by
            rw [Finset.sum_neg_distrib]
        _ = ∑ e ∈ ps.toFinset, (if σ i ∧ e ∈ subsets.getD i ∅ then (-1 : ℤ) else 0) := by
            apply Finset.sum_congr rfl
            intro e _
            by_cases hm : e ∈ subsets.getD i ∅
            · rw [if_pos hm, if_pos ⟨hσ, hm⟩]
            · rw [if_neg hm, if_neg (fun h => hm h.2)]; ring
    · rw [if_neg hσ]
      symm
      exact Finset.sum_eq_zero (fun e _ => if_neg (fun h => hσ h.1))
  rw [Finset.sum_congr rfl step1, Finset.sum_comm]
  apply Finset.sum_congr rfl
  intro e _
  calc ∑ i ∈ Finset.range subsets.length,
        (if σ i ∧ e ∈ subsets.getD i ∅ then (-1 : ℤ) else 0)
      = ∑ i ∈ Finset.range subsets.length,
          -(if σ i ∧ e ∈ subsets.getD i ∅ then (1 : ℤ) else 0) := by
        apply Finset.sum_congr rfl
        intro i _
        split_ifs <;> ring
    _ = -(∑ i ∈ Finset.range subsets.length,
          if σ i ∧ e ∈ subsets.getD i ∅ then (1 : ℤ) else 0) := by
        rw [Finset.sum_neg_distrib]
    _ = -((coverCount subsets σ e : ℕ) : ℤ) := by rw [coverCount_cast]

theorem coverBQM_quadratic_sum (ps : List ℤ) (subsets : List (Finset ℤ)) (σ : ℕ → Bool) :
    (∑ i ∈ Finset.range subsets.length, ∑ j ∈ Finset.range i,
        if σ i ∧ σ j then (coverBQM ps subsets).quadratic (i, j) else 0)
      = ∑ e ∈ ps.toFinset,
          (((coverCount subsets σ e : ℕ) : ℤ) * ((coverCount subsets σ e : ℕ) : ℤ)
            - ((coverCount subsets σ e : ℕ) : ℤ)) := by
  have step1 : ∀ i ∈ Finset.range subsets.length, ∀ j ∈ Finset.range i,
      (if σ i ∧ σ j then (coverBQM ps subsets).quadratic (i, j) else 0)
        = ∑ e ∈ ps.toFinset,
            (if (σ i ∧ e ∈ subsets.getD i ∅) ∧ (σ j ∧ e ∈ subsets.getD j ∅)
             then (2 : ℤ) else 0) := by
    intro i hi j hj
    have hilt : i < subsets.length := Finset.mem_range.1 hi
    have hjlt : j < i := Finset.mem_range.1 hj
    by_cases hσ : σ i = true ∧ σ j = true
    · rw [if_pos hσ, coverBQM_quadratic]
      have hcong : ps.dedup.countP (fun e => decide ((i, j).1 < subsets.length
            ∧ e ∈ subsets.getD (i, j).1 ∅ ∧ (i, j).2 < (i, j).1
            ∧ e ∈ subsets.getD (i, j).2 ∅))
          = ps.dedup.countP
              (fun e => decide (e ∈ subsets.getD i ∅ ∧ e ∈ subsets.getD j ∅)) := by
        apply List.countP_congr
        intro a _
        by_cases hm : a ∈ subsets.getD i ∅ ∧ a ∈ subsets.getD j ∅
        · rw [decide_eq_true (show (i, j).1 < subsets.length ∧ a ∈ subsets.getD (i, j).1 ∅
              ∧ (i, j).2 < (i, j).1 ∧ a ∈ subsets.getD (i, j).2 ∅ from
              ⟨hilt, hm.1, hjlt, hm.2⟩),
            decide_eq_true hm]
        · rw [decide_eq_false (show ¬((i, j).1 < subsets.length
              ∧ a ∈ subsets.getD (i, j).1 ∅ ∧ (i, j).2 < (i, j).1
              ∧ a ∈ subsets.getD (i, j).2 ∅) from fun h => hm ⟨h.2.1, h.2.2.2⟩),
            decide_eq_false hm]
      rw [hcong, countP_dedup_card _ (List.nodup_dedup ps)
          (fun e => e ∈ subsets.getD i ∅ ∧ e ∈ subsets.getD j ∅),
        dedup_toFinset, Finset.natCast_card_filter, Finset.mul_sum]
      apply Finset.sum_congr rfl
      intro e _
      by_cases hm : e ∈ subsets.getD i ∅ ∧ e ∈ subsets.getD j ∅
      · rw [if_pos hm, if_pos ⟨⟨hσ.1, hm.1⟩, hσ.2, hm.2⟩]; ring
      · rw [if_neg hm, if_neg (fun h => hm ⟨h.1.2, h.2.2⟩)]; ring
    · rw [if_neg hσ]
      symm
      exact Finset.sum_eq_zero (fun e _ => if_neg (fun h => hσ ⟨h.1.1, h.2.1⟩))
  have hswap : (∑ i ∈ Finset.range subsets.length, ∑ j ∈ Finset.range i,
      if σ i ∧ σ j then (coverBQM ps subsets).quadratic (i, j) else 0)
      = ∑ e ∈ ps.toFinset, ∑ i ∈ Finset.range subsets.length, ∑ j ∈ Finset.range i,
          (if (σ i ∧ e ∈ subsets.getD i ∅) ∧ (σ j ∧ e ∈ subsets.getD j ∅)
           then (2 : ℤ) else 0) := by
    rw [Finset.sum_congr rfl (fun i hi =>
      (Finset.sum_congr rfl (fun j hj => step1 i hi j hj)).trans Finset.sum_comm)]
    exact Finset.sum_comm
  rw [hswap]
  apply Finset.sum_congr rfl
  intro e _
  have hmem : ∀ i, i ∈ Finset.range subsets.length →
      ((σ i ∧ e ∈ subsets.getD i ∅)
        ↔ i ∈ (Finset.range subsets.length).filter
            (fun i => σ i ∧ e ∈ subsets.getD i ∅)) := by
    intro i hi
    rw [Finset.mem_filter]
    exact ⟨fun h => ⟨hi, h⟩, fun h => h.2⟩
  calc ∑ i ∈ Finset.range subsets.length, ∑ j ∈ Finset.range i,
        (if (σ i ∧ e ∈ subsets.getD i ∅) ∧ (σ j ∧ e ∈ subsets.getD j ∅)
         then (2 : ℤ) else 0)
      = ∑ i ∈ Finset.range subsets.length, ∑ j ∈ Finset.range i,
          2 * (if i ∈ (Finset.range subsets.length).filter
                  (fun i => σ i ∧ e ∈ subsets.getD i ∅)
                ∧ j ∈ (Finset.range subsets.length).filter
                  (fun i => σ i ∧ e ∈ subsets.getD i ∅)
               then (1 : ℤ) else 0) := by
        apply Finset.sum_congr rfl
        intro i hi
        apply Finset.sum_congr rfl
        intro j hj
        have hjm : j ∈ Finset.range subsets.length :=
          Finset.mem_range.2 (Nat.lt_trans (Finset.mem_range.1 hj) (Finset.mem_range.1 hi))
        rw [if_congr (and_congr (hmem i hi) (hmem j hjm)) rfl rfl]
        split_ifs <;> ring
    _ = 2 * ∑ i ∈ Finset.range subsets.length, ∑ j ∈ Finset.range i,
          (if i ∈ (Finset.range subsets.length).filter
              (fun i => σ i ∧ e ∈ subsets.getD i ∅)
            ∧ j ∈ (Finset.range subsets.length).filter
              (fun i => σ i ∧ e ∈ subsets.getD i ∅)
           then (1 : ℤ) else 0) := by
        rw [Finset.mul_sum]
        apply Finset.sum_congr rfl
        intro i _
        rw [Finset.mul_sum]
    _ = ((coverCount subsets σ e : ℕ) : ℤ) * ((coverCount subsets σ e : ℕ) : ℤ)
        - ((coverCount subsets σ e : ℕ) : ℤ) := by
        rw [double_range_count subsets.length _ (Finset.filter_subset _ _),
          two_mul_lt_pairs_int]
        rfl

/-- The central identity: the energy of the exact-cover model under any
0/1 assignment is the sum, over the distinct elements of the problem set,
of `(coverCount - 1)^2`. -/
theorem energy_coverBQM (ps : List ℤ) (subsets : List (Finset ℤ)) (σ : ℕ → Bool) :
    energy (coverBQM ps subsets) subsets.length σ
      = ∑ e ∈ ps.toFinset, (((coverCount subsets σ e : ℕ) : ℤ) - 1) ^ 2 := by
  rw [energy, coverBQM_offset_sum, coverBQM_linear_sum, coverBQM_quadratic_sum,
    ← Finset.sum_add_distrib, ← Finset.sum_add_distrib]
  apply Finset.sum_congr rfl
  intro e _
  ring

theorem dedup_length_eq_iff (l : List ℤ) : l.dedup.length = l.length ↔ l.Nodup := by
  constructor
  · intro h
    have heq := List.Sublist.eq_of_length (List.dedup_sublist l) h
    rw [← heq]
    exact List.nodup_dedup l
  · intro h
    rw [List.dedup_eq_self.2 h]

theorem exact_cover_ok_of_nodup (ps : List ℤ) (subsets : List (Finset ℤ))
    (hnd : ps.Nodup) :
    exact_cover_bqm ps subsets = Except.ok (coverBQM ps subsets) := by
  rw [exact_cover_bqm,
    if_neg (show ¬ps.dedup.length ≠ ps.length from
      fun h => h ((dedup_length_eq_iff ps).2 hnd))]

/-! ### Claim theorems -/

/-- C1: for every duplicate-free `problem_set` and every list of subsets
such that some sub-collection of the subsets covers `problem_set` exactly
once, the model returned by `exact_cover_bqm` has minimum energy `0` over
all 0/1 assignments: the energy (offset plus selected linear biases plus
selected pairwise quadratic biases) is nonnegative for every assignment,
vanishes exactly for the assignments whose selected subsets cover every
element of `problem_set` exactly once, and the value `0` is attained. -/
theorem exact_cover_bqm_ground_energy (ps : List ℤ) (subsets : List (Finset ℤ))
    (hnd : ps.Nodup)
    (hcov : ∃ σ : ℕ → Bool, ∀ e ∈ ps, coverCount subsets σ e = 1) :
    exact_cover_bqm ps subsets = Except.ok (coverBQM ps subsets)
    ∧ (∀ σ : ℕ → Bool, 0 ≤ energy (coverBQM ps subsets) subsets.length σ)
    ∧ (∀ σ : ℕ → Bool, energy (coverBQM ps subsets) subsets.length σ = 0
        ↔ ∀ e ∈ ps, coverCount subsets σ e = 1)
    ∧ (∃ σ : ℕ → Bool, energy (coverBQM ps subsets) subsets.length σ = 0) := by
  have hiff : ∀ σ : ℕ → Bool, energy (coverBQM ps subsets) subsets.length σ = 0
      ↔ ∀ e ∈ ps, coverCount subsets σ e = 1 := by
    intro σ
    rw [energy_coverBQM,
      Finset.sum_eq_zero_iff_of_nonneg (fun e _ => sq_nonneg _)]
    constructor
    · intro h e he
      have h2 := h e (List.mem_toFinset.2 he)
      have h3 : ((coverCount subsets σ e : ℕ) : ℤ) - 1 = 0 :=
        (pow_eq_zero_iff (by norm_num : (2 : ℕ) ≠ 0)).1 h2
      have h4 : ((coverCount subsets σ e : ℕ) : ℤ) = 1 := by linarith
      exact_mod_cast h4
    · intro h e he
      rw [h e (List.mem_toFinset.1 he)]
      norm_num
  refine ⟨exact_cover_ok_of_nodup ps subsets hnd, ?_, hiff, ?_⟩
  · intro σ
    rw [energy_coverBQM]
    exact Finset.sum_nonneg (fun e _ => sq_nonneg _)
  · rcases hcov with ⟨σ, hσ⟩
    exact ⟨σ, (hiff σ).2 hσ⟩

/-- Witness for C1: the instance `problem_set = [0, 1]`,
`subsets = [{0}, {1}]`, where selecting both subsets is an exact cover of
energy `0`. -/
theorem exact_cover_bqm_ground_energy_witness :
    energy (coverBQM [(0 : ℤ), 1] [{0}, {1}])
      (List.length ([{0}, {1}] : List (Finset ℤ))) (fun _ => true) = 0 :=
  ((exact_cover_bqm_ground_energy [(0 : ℤ), 1] [{0}, {1}] (by decide)
      ⟨fun _ => true, by decide⟩).2.2.1 (fun _ => true)).2 (by decide)

/-- C4: for a duplicate-free `problem_set` the model built by
`exact_cover_bqm` has linear bias `-1` times the number of elements of
`problem_set` in `subsets[i]`, quadratic bias `2` times the number of
elements in both `subsets[i]` and `subsets[j]` on each pair `(i, j)` with
`j < i` (and no bias on any other pair), and offset equal to the number of
elements of `problem_set`. -/
theorem exact_cover_bqm_biases (ps : List ℤ) (subsets : List (Finset ℤ))
    (hnd : ps.Nodup) :
    exact_cover_bqm ps subsets = Except.ok (coverBQM ps subsets)
    ∧ (∀ i, i < subsets.length →
        (coverBQM ps subsets).linear i
          = -(ps.countP (fun e => decide (e ∈ subsets.getD i ∅)) : ℤ))
    ∧ (∀ i, subsets.length ≤ i → (coverBQM ps subsets).linear i = 0)
    ∧ (∀ i j, j < i → i < subsets.length →
        (coverBQM ps subsets).quadratic (i, j)
          = 2 * (ps.countP (fun e =>
              decide (e ∈ subsets.getD i ∅ ∧ e ∈ subsets.getD j ∅)) : ℤ))
    ∧ (∀ i j, ¬(j < i ∧ i < subsets.length) →
        (coverBQM ps subsets).quadratic (i, j) = 0)
    ∧ (coverBQM ps subsets).offset = (ps.length : ℤ) := by
  have hded : ps.dedup = ps := List.dedup_eq_self.2 hnd
  refine ⟨exact_cover_ok_of_nodup ps subsets hnd, ?_, ?_, ?_, ?_, ?_⟩
  · intro i hilt
    rw [coverBQM_linear, hded]
    congr 1
    norm_cast
    apply List.countP_congr
    intro a _
    by_cases hm : a ∈ subsets.getD i ∅
    · rw [decide_eq_true (⟨hilt, hm⟩ : i < subsets.length ∧ a ∈ subsets.getD i ∅),
        decide_eq_true hm]
    · rw [decide_eq_false (fun h => hm h.2), decide_eq_false hm]
  · intro i hile
    rw [coverBQM_linear]
    have h0 : ps.dedup.countP
        (fun e => decide (i < subsets.length ∧ e ∈ subsets.getD i ∅)) = 0 := by
      apply List.countP_eq_zero.2
      intro a _ hdec
      exact absurd (of_decide_eq_true hdec).1 (Nat.not_lt.2 hile)
    rw [h0]
    simp
  · intro i j hji hilt
    rw [coverBQM_quadratic, hded]
    congr 1
    norm_cast
    apply List.countP_congr
    intro a _
    by_cases hm : a ∈ subsets.getD i ∅ ∧ a ∈ subsets.getD j ∅
    · rw [decide_eq_true (show (i, j).1 < subsets.length ∧ a ∈ subsets.getD (i, j).1 ∅
          ∧ (i, j).2 < (i, j).1 ∧ a ∈ subsets.getD (i, j).2 ∅ from
          ⟨hilt, hm.1, hji, hm.2⟩),
        decide_eq_true hm]
    · rw [decide_eq_false (show ¬((i, j).1 < subsets.length ∧ a ∈ subsets.getD (i, j).1 ∅
          ∧ (i, j).2 < (i, j).1 ∧ a ∈ subsets.getD (i, j).2 ∅) from
          fun h => hm ⟨h.2.1, h.2.2.2⟩),
        decide_eq_false hm]
  · intro i j hn
    rw [coverBQM_quadratic]
    have h0 : ps.dedup.countP (fun e => decide ((i, j).1 < subsets.length
        ∧ e ∈ subsets.getD (i, j).1 ∅ ∧ (i, j).2 < (i, j).1
        ∧ e ∈ subsets.getD (i, j).2 ∅)) = 0 := by
      apply List.countP_eq_zero.2
      intro a _ hdec
      exact hn ⟨(of_decide_eq_true hdec).2.2.1, (of_decide_eq_true hdec).1⟩
    rw [h0]
    simp
  · rw [coverBQM_offset, hded]

/-- Witness for C4: the linear bias of variable `1` on the instance
`problem_set = [0, 1]`, `subsets = [{0}, {1}]`. -/
theorem exact_cover_bqm_biases_witness :
    (coverBQM [(0 : ℤ), 1] [{0}, {1}]).linear 1
      = -(([(0 : ℤ), 1]).countP (fun e =>
          decide (e ∈ ([{0}, {1}] : List (Finset ℤ)).getD 1 ∅)) : ℤ) :=
  (exact_cover_bqm_biases [(0 : ℤ), 1] [{0}, {1}] (by decide)).2.1 1 (by decide)

/-- C5: `exact_cover_bqm` reports an error to the caller exactly when the
problem set contains a duplicate element, in which case it returns the
error alone, with no model; a duplicate-free input always yields a
model. -/
theorem exact_cover_bqm_duplicate_check (ps : List ℤ) (subsets : List (Finset ℤ)) :
    ((∃ msg, exact_cover_bqm ps subsets = Except.error msg) ↔ ¬ps.Nodup)
    ∧ (¬ps.Nodup → exact_cover_bqm ps subsets
        = Except.error "problem_set should not contain any duplicates")
    ∧ (ps.Nodup → exact_cover_bqm ps subsets = Except.ok (coverBQM ps subsets)) := by
  have herr : ¬ps.Nodup → exact_cover_bqm ps subsets
      = Except.error "problem_set should not contain any duplicates" := by
    intro h
    rw [exact_cover_bqm, if_pos (fun heq => h ((dedup_length_eq_iff ps).1 heq))]
  refine ⟨⟨?_, fun h => ⟨_, herr h⟩⟩, herr, exact_cover_ok_of_nodup ps subsets⟩
  rintro ⟨msg, hmsg⟩ hnd
  rw [exact_cover_ok_of_nodup ps subsets hnd] at hmsg
  exact Except.noConfusion hmsg

/-- Witness for C5: the duplicated problem set `[0, 0]` is rejected. -/
theorem exact_cover_bqm_duplicate_check_witness :
    exact_cover_bqm [(0 : ℤ), 0] []
      = Except.error "problem_set should not contain any duplicates" :=
  (exact_cover_bqm_duplicate_check [(0 : ℤ), 0] []).2.1 (by decide)

/-- C7: `handle_diag_constraints` adds exactly `+2` to the quadratic bias
of each pair `(i, j)` with `j < i` for each soft constraint ID contained
in both `subsets[i]` and `subsets[j]`, and changes nothing else: all
linear biases, the offset, and every other quadratic bias are
untouched. -/
theorem handle_diag_constraints_frame (bqm : BQM) (subsets : List (Finset ℤ))
    (ds : List ℤ) (hnd : ds.Nodup) :
    (handle_diag_constraints bqm subsets ds).linear = bqm.linear
    ∧ (handle_diag_constraints bqm subsets ds).offset = bqm.offset
    ∧ (∀ i j, j < i → i < subsets.length →
        (handle_diag_constraints bqm subsets ds).quadratic (i, j)
          = bqm.quadratic (i, j)
            + 2 * (ds.countP (fun c =>
                decide (c ∈ subsets.getD i ∅ ∧ c ∈ subsets.getD j ∅)) : ℤ))
    ∧ (∀ i j, ¬(j < i ∧ i < subsets.length) →
        (handle_diag_constraints bqm subsets ds).quadratic (i, j)
          = bqm.quadratic (i, j)) := by
  refine ⟨handle_diag_linear bqm subsets ds, handle_diag_offset bqm subsets ds, ?_, ?_⟩
  · intro i j hji hilt
    rw [handle_diag_quadratic]
    congr 2
    norm_cast
    apply List.countP_congr
    intro a _
    by_cases hm : a ∈ subsets.getD i ∅ ∧ a ∈ subsets.getD j ∅
    · rw [decide_eq_true (show (i, j).1 < subsets.length ∧ a ∈ subsets.getD (i, j).1 ∅
          ∧ (i, j).2 < (i, j).1 ∧ a ∈ subsets.getD (i, j).2 ∅ from
          ⟨hilt, hm.1, hji, hm.2⟩),
        decide_eq_true hm]
    · rw [decide_eq_false (show ¬((i, j).1 < subsets.length ∧ a ∈ subsets.getD (i, j).1 ∅
          ∧ (i, j).2 < (i, j).1 ∧ a ∈ subsets.getD (i, j).2 ∅) from
          fun h => hm ⟨h.2.1, h.2.2.2⟩),
        decide_eq_false hm]
  · intro i j hn
    rw [handle_diag_quadratic]
    have h0 : ds.countP (fun c => decide ((i, j).1 < subsets.length
        ∧ c ∈ subsets.getD (i, j).1 ∅ ∧ (i, j).2 < (i, j).1
        ∧ c ∈ subsets.getD (i, j).2 ∅)) = 0 := by
      apply List.countP_eq_zero.2
      intro a _ hdec
      exact hn ⟨(of_decide_eq_true hdec).2.2.1, (of_decide_eq_true hdec).1⟩
    rw [h0]
    simp

/-- Witness for C7: on `subsets = [{0}, {0}]` with the single soft
constraint `0`, the pair `(1, 0)` receives bias `+2`. -/
theorem handle_diag_constraints_frame_witness :
    (handle_diag_constraints emptyBQM [{(0 : ℤ)}, {0}] [0]).quadratic (1, 0)
      = emptyBQM.quadratic (1, 0)
        + 2 * (([(0 : ℤ)]).countP (fun c =>
            decide (c ∈ ([{(0 : ℤ)}, {0}] : List (Finset ℤ)).getD 1 ∅
              ∧ c ∈ ([{(0 : ℤ)}, {0}] : List (Finset ℤ)).getD 0 ∅)) : ℤ) :=
  (handle_diag_constraints_frame emptyBQM [{(0 : ℤ)}, {0}] [0] (by decide)).2.2.1
    1 0 (by decide) (by decide)

/-! ### Board geometry: `build_subsets` -/

theorem mem_cellSubset (n x y : ℕ) (c : ℤ) :
    c ∈ cellSubset n x y ↔
      c = (x : ℤ) ∨ c = (y : ℤ) + n
      ∨ ((2 * (n : ℤ) ≤ diagCell n x y ∧ diagCell n x y ≤ 4 * (n : ℤ) - 4)
          ∧ c = diagCell n x y)
      ∨ ((4 * (n : ℤ) - 3 ≤ antiDiagCell n x y ∧ antiDiagCell n x y ≤ 6 * (n : ℤ) - 7)
          ∧ c = antiDiagCell n x y) := by
  rw [cellSubset, withDiag]
  by_cases hd : 2 * (n : ℤ) ≤ diagCell n x y ∧ diagCell n x y ≤ 4 * (n : ℤ) - 4
  · by_cases ha : 4 * (n : ℤ) - 3 ≤ antiDiagCell n x y
        ∧ antiDiagCell n x y ≤ 6 * (n : ℤ) - 7
    · rw [if_pos ha, if_pos hd]
      simp only [baseCell, Finset.mem_insert, Finset.mem_singleton]
      tauto
    · rw [if_neg ha, if_pos hd]
      simp only [baseCell, Finset.mem_insert, Finset.mem_singleton]
      tauto
  · by_cases ha : 4 * (n : ℤ) - 3 ≤ antiDiagCell n x y
        ∧ antiDiagCell n x y ≤ 6 * (n : ℤ) - 7
    · rw [if_pos ha, if_neg hd]
      simp only [baseCell, Finset.mem_insert, Finset.mem_singleton]
      tauto
    · rw [if_neg ha, if_neg hd]
      simp only [baseCell, Finset.mem_insert, Finset.mem_singleton]
      tauto

theorem baseCell_card (n x y : ℕ) (hx : x < n) : (baseCell n x y).card = 2 := by
  rw [baseCell, Finset.card_insert_of_not_mem, Finset.card_singleton]
  rw [Finset.mem_singleton]
  intro h
  omega

theorem withDiag_card (n x y : ℕ) (hx : x < n) (hy : y < n) :
    (withDiag n x y).card
      = (baseCell n x y).card
        + (if 2 * (n : ℤ) ≤ diagCell n x y ∧ diagCell n x y ≤ 4 * (n : ℤ) - 4
           then 1 else 0) := by
  rw [withDiag]
  split_ifs with hd
  · rw [Finset.card_insert_of_not_mem]
    rw [baseCell, Finset.mem_insert, Finset.mem_singleton]
    simp only [diagCell] at hd ⊢
    omega
  · rw [add_zero]

theorem cellSubset_card (n x y : ℕ) (hx : x < n) (hy : y < n) :
    (cellSubset n x y).card
      = 2 + (if 2 * (n : ℤ) ≤ diagCell n x y ∧ diagCell n x y ≤ 4 * (n : ℤ) - 4
             then 1 else 0)
          + (if 4 * (n : ℤ) - 3 ≤ antiDiagCell n x y
                ∧ antiDiagCell n x y ≤ 6 * (n : ℤ) - 7
             then 1 else 0) := by
  by_cases ha : 4 * (n : ℤ) - 3 ≤ antiDiagCell n x y ∧ antiDiagCell n x y ≤ 6 * (n : ℤ) - 7
  · have hnm : antiDiagCell n x y ∉ withDiag n x y := by
      rw [withDiag]
      split_ifs with hd
      · rw [Finset.mem_insert, baseCell, Finset.mem_insert, Finset.mem_singleton]
        simp only [diagCell, antiDiagCell] at hd ha ⊢
        omega
      · rw [baseCell, Finset.mem_insert, Finset.mem_singleton]
        simp only [antiDiagCell] at ha ⊢
        omega
    rw [cellSubset, if_pos ha, Finset.card_insert_of_not_mem hnm,
      withDiag_card n x y hx hy, baseCell_card n x y hx, if_pos ha]
  · rw [cellSubset, if_neg ha, withDiag_card n x y hx hy, baseCell_card n x y hx,
      if_neg ha, add_zero]

theorem cellSubset_filter_col (n x y : ℕ) (hx : x < n) (hy : y < n) :
    (cellSubset n x y).filter (fun c => 0 ≤ c ∧ c < (n : ℤ)) = {(x : ℤ)} := by
  apply Finset.ext
  intro c
  rw [Finset.mem_filter, mem_cellSubset, Finset.mem_singleton]
  constructor
  · rintro ⟨h | h | ⟨hd, h⟩ | ⟨ha, h⟩, hc⟩ <;> subst h <;>
      first
        | rfl
        | (exfalso; (try simp only [diagCell, antiDiagCell] at *); omega)
  · rintro rfl
    exact ⟨Or.inl rfl, by constructor <;> omega⟩

theorem cellSubset_filter_row (n x y : ℕ) (hx : x < n) (hy : y < n) :
    (cellSubset n x y).filter (fun c => (n : ℤ) ≤ c ∧ c < 2 * n) = {(y : ℤ) + n} := by
  apply Finset.ext
  intro c
  rw [Finset.mem_filter, mem_cellSubset, Finset.mem_singleton]
  constructor
  · rintro ⟨h | h | ⟨hd, h⟩ | ⟨ha, h⟩, hc⟩ <;> subst h <;>
      first
        | rfl
        | (exfalso; (try simp only [diagCell, antiDiagCell] at *); omega)
  · rintro rfl
    exact ⟨Or.inr (Or.inl rfl), by constructor <;> omega⟩

theorem cellSubset_filter_diag (n x y : ℕ) (hx : x < n) (hy : y < n) :
    (cellSubset n x y).filter (fun c => 2 * (n : ℤ) ≤ c ∧ c ≤ 4 * (n : ℤ) - 4)
      = if 2 * (n : ℤ) ≤ diagCell n x y ∧ diagCell n x y ≤ 4 * (n : ℤ) - 4
        then {diagCell n x y} else ∅ := by
  apply Finset.ext
  intro c
  rw [Finset.mem_filter, mem_cellSubset]
  split_ifs with hd
  · rw [Finset.mem_singleton]
    constructor
    · rintro ⟨h | h | ⟨hd', h⟩ | ⟨ha, h⟩, hc⟩ <;> subst h <;>
        first
          | rfl
          | (exfalso; (try simp only [diagCell, antiDiagCell] at *); omega)
    · rintro rfl
      exact ⟨Or.inr (Or.inr (Or.inl ⟨hd, rfl⟩)), hd⟩
  · simp only [Finset.not_mem_empty, iff_false]
    rintro ⟨h | h | ⟨hd', h⟩ | ⟨ha, h⟩, hc⟩ <;> subst h <;>
      (try simp only [diagCell, antiDiagCell] at *) <;> omega

theorem cellSubset_filter_anti (n x y : ℕ) (hx : x < n) (hy : y < n) :
    (cellSubset n x y).filter (fun c => 4 * (n : ℤ) - 3 ≤ c ∧ c ≤ 6 * (n : ℤ) - 7)
      = if 4 * (n : ℤ) - 3 ≤ antiDiagCell n x y ∧ antiDiagCell n x y ≤ 6 * (n : ℤ) - 7
        then {antiDiagCell n x y} else ∅ := by
  apply Finset.ext
  intro c
  rw [Finset.mem_filter, mem_cellSubset]
  split_ifs with ha
  · rw [Finset.mem_singleton]
    constructor
    · rintro ⟨h | h | ⟨hd', h⟩ | ⟨ha', h⟩, hc⟩ <;> subst h <;>
        first
          | rfl
          | (exfalso; (try simp only [diagCell, antiDiagCell] at *); omega)
    · rintro rfl
      exact ⟨Or.inr (Or.inr (Or.inr ⟨ha, rfl⟩)), ha⟩
  · simp only [Finset.not_mem_empty, iff_false]
    rintro ⟨h | h | ⟨hd', h⟩ | ⟨ha', h⟩, hc⟩ <;> subst h <;>
      (try simp only [diagCell, antiDiagCell] at *) <;> omega

theorem flat_length (n m : ℕ) :
    ((List.range m).flatMap
      (fun x => (List.range n).map (fun y => cellSubset n x y))).length = m * n := by
  induction m with
  | zero => simp
  | succ m ih =>
    rw [List.range_succ, List.flatMap_append, List.length_append, ih,
      List.flatMap_cons, List.flatMap_nil, List.append_nil, List.length_map,
      List.length_range]
    ring

theorem flat_get (n m x y : ℕ) (hx : x < m) (hy : y < n) :
    ((List.range m).flatMap
      (fun x => (List.range n).map (fun y => cellSubset n x y)))[x * n + y]?
      = some (cellSubset n x y) := by
  induction m with
  | zero => exact absurd hx (Nat.not_lt_zero x)
  | succ m ih =>
    rw [List.range_succ, List.flatMap_append, List.flatMap_cons, List.flatMap_nil,
      List.append_nil, List.getElem?_append, flat_length]
    by_cases hx' : x < m
    · rw [if_pos (calc x * n + y < x * n + n := by omega
          _ = (x + 1) * n := by ring
          _ ≤ m * n := Nat.mul_le_mul_right n (Nat.succ_le_of_lt hx'))]
      exact ih hx'
    · have hxm : x = m := by omega
      subst hxm
      rw [if_neg (by omega : ¬(x * n + y < x * n))]
      have hidx : x * n + y - x * n = y := by omega
      rw [hidx, List.getElem?_map, List.getElem?_range hy]
      rfl

theorem build_subsets_length (n : ℕ) : (build_subsets n).length = n * n :=
  flat_length n n

theorem build_subsets_get (n x y : ℕ) (hx : x < n) (hy : y < n) :
    (build_subsets n)[x * n + y]? = some (cellSubset n x y) :=
  flat_get n n x y hx hy

theorem cellSubset_inj (n x y x' y' : ℕ) (hx : x < n) (hy : y < n)
    (hx' : x' < n) (hy' : y' < n)
    (h : cellSubset n x y = cellSubset n x' y') : x = x' ∧ y = y' := by
  have hcol : (x : ℤ) ∈ cellSubset n x' y' :=
    h ▸ (mem_cellSubset n x y (x : ℤ)).2 (Or.inl rfl)
  have hrow : (y : ℤ) + n ∈ cellSubset n x' y' :=
    h ▸ (mem_cellSubset n x y ((y : ℤ) + n)).2 (Or.inr (Or.inl rfl))
  rw [mem_cellSubset] at hcol hrow
  rcases hcol with h1 | h1 | ⟨hd, h1⟩ | ⟨ha, h1⟩ <;>
    rcases hrow with h2 | h2 | ⟨hd', h2⟩ | ⟨ha', h2⟩ <;>
    (try simp only [diagCell, antiDiagCell] at *) <;> omega

/-- Counterexample to C3 as stated: at `n = 4` the subset of board cell
`(0, 0)` (list index `0`, a corner cell) has `3` constraint IDs, not `2`,
so subsets do not contain "exactly 2 or 4" constraint IDs and corners do
not have `2`. -/
theorem build_subsets_corner_counterexample :
    ((build_subsets 4).getD 0 ∅).card = 3
    ∧ ¬(((build_subsets 4).getD 0 ∅).card = 2
        ∨ ((build_subsets 4).getD 0 ∅).card = 4) := by decide

/-- C3 (amended): for every `n ≥ 1`, `build_subsets n` returns exactly
`n * n` subsets, each containing exactly one column ID, exactly one row
ID, at most one diagonal ID and at most one anti-diagonal ID, hence `2`,
`3` or `4` constraint IDs in total: `2` at the single cell when `n = 1`,
`3` at the four corner cells when `n ≥ 2`, and `4` at all other cells. -/
theorem build_subsets_card_profile (n : ℕ) (hn : 1 ≤ n) :
    (build_subsets n).length = n * n
    ∧ ∀ x y, x < n → y < n → ∀ s, (build_subsets n)[x * n + y]? = some s →
        ((s.filter (fun c => 0 ≤ c ∧ c < (n : ℤ))).card = 1
        ∧ (s.filter (fun c => (n : ℤ) ≤ c ∧ c < 2 * n)).card = 1
        ∧ (s.filter (fun c => 2 * (n : ℤ) ≤ c ∧ c ≤ 4 * (n : ℤ) - 4)).card ≤ 1
        ∧ (s.filter (fun c => 4 * (n : ℤ) - 3 ≤ c ∧ c ≤ 6 * (n : ℤ) - 7)).card ≤ 1
        ∧ (s.card = 2 ∨ s.card = 3 ∨ s.card = 4)
        ∧ (if n = 1 then s.card = 2
           else if (x = 0 ∨ x = n - 1) ∧ (y = 0 ∨ y = n - 1) then s.card = 3
           else s.card = 4)) := by
  refine ⟨build_subsets_length n, ?_⟩
  intro x y hx hy s hs
  have hseq : s = cellSubset n x y := by
    rw [build_subsets_get n x y hx hy] at hs
    exact (Option.some.inj hs).symm
  subst hseq
  have hcards := cellSubset_card n x y hx hy
  refine ⟨?_, ?_, ?_, ?_, ?_, ?_⟩
  · rw [cellSubset_filter_col n x y hx hy]
    exact Finset.card_singleton _
  · rw [cellSubset_filter_row n x y hx hy]
    exact Finset.card_singleton _
  · rw [cellSubset_filter_diag n x y hx hy]
    split_ifs <;> simp
  · rw [cellSubset_filter_anti n x y hx hy]
    split_ifs <;> simp
  · rw [hcards]
    split_ifs <;> omega
  · rw [hcards]
    by_cases h1 : n = 1
    · subst h1
      have hx0 : x = 0 := by omega
      have hy0 : y = 0 := by omega
      subst hx0
      subst hy0
      rw [if_pos rfl]
      decide
    · rw [if_neg h1]
      have hd_iff : (2 * (n : ℤ) ≤ diagCell n x y ∧ diagCell n x y ≤ 4 * (n : ℤ) - 4)
          ↔ ¬(x + y = 0 ∨ x + y = 2 * n - 2) := by
        simp only [diagCell]
        omega
      have ha_iff : (4 * (n : ℤ) - 3 ≤ antiDiagCell n x y
            ∧ antiDiagCell n x y ≤ 6 * (n : ℤ) - 7)
          ↔ ¬((x = n - 1 ∧ y = 0) ∨ (x = 0 ∧ y = n - 1)) := by
        simp only [antiDiagCell]
        omega
      by_cases hd : 2 * (n : ℤ) ≤ diagCell n x y ∧ diagCell n x y ≤ 4 * (n : ℤ) - 4 <;>
        by_cases hac : 4 * (n : ℤ) - 3 ≤ antiDiagCell n x y
            ∧ antiDiagCell n x y ≤ 6 * (n : ℤ) - 7
      · rw [if_pos hd, if_pos hac]
        rw [hd_iff] at hd
        rw [ha_iff] at hac
        split_ifs with hc <;> omega
      · rw [if_pos hd, if_neg hac]
        rw [hd_iff] at hd
        rw [ha_iff] at hac
        split_ifs with hc <;> omega
      · rw [if_neg hd, if_pos hac]
        rw [hd_iff] at hd
        rw [ha_iff] at hac
        split_ifs with hc <;> omega
      · rw [if_neg hd, if_neg hac]
        rw [hd_iff] at hd
        rw [ha_iff] at hac
        split_ifs with hc <;> omega

/-- Witness for C3 (amended) at `n = 2`. -/
theorem build_subsets_card_profile_witness : (build_subsets 2).length = 2 * 2 :=
  (build_subsets_card_profile 2 (by decide)).1

/-- C6: every constraint ID emitted by `build_subsets n` lies in one of
the four declared ranges (columns `[0, n)`, rows `[n, 2n)`, diagonals
`[2n, 4n-4]`, anti-diagonals `[4n-3, 6n-7]`); the four ranges are
pairwise disjoint; and a cell's subset contains an ID in the diagonal
(resp. anti-diagonal) range exactly when the computed diagonal
(resp. anti-diagonal) value of that cell falls inside its declared
range. -/
theorem build_subsets_id_ranges (n : ℕ) (hn : 1 ≤ n) :
    (∀ s ∈ build_subsets n, ∀ c ∈ s,
        (0 ≤ c ∧ c < (n : ℤ)) ∨ ((n : ℤ) ≤ c ∧ c < 2 * n)
        ∨ (2 * (n : ℤ) ≤ c ∧ c ≤ 4 * (n : ℤ) - 4)
        ∨ (4 * (n : ℤ) - 3 ≤ c ∧ c ≤ 6 * (n : ℤ) - 7))
    ∧ (∀ c : ℤ,
        ¬((0 ≤ c ∧ c < (n : ℤ)) ∧ ((n : ℤ) ≤ c ∧ c < 2 * n))
        ∧ ¬((0 ≤ c ∧ c < (n : ℤ)) ∧ (2 * (n : ℤ) ≤ c ∧ c ≤ 4 * (n : ℤ) - 4))
        ∧ ¬((0 ≤ c ∧ c < (n : ℤ)) ∧ (4 * (n : ℤ) - 3 ≤ c ∧ c ≤ 6 * (n : ℤ) - 7))
        ∧ ¬(((n : ℤ) ≤ c ∧ c < 2 * n) ∧ (2 * (n : ℤ) ≤ c ∧ c ≤ 4 * (n : ℤ) - 4))
        ∧ ¬(((n : ℤ) ≤ c ∧ c < 2 * n) ∧ (4 * (n : ℤ) - 3 ≤ c ∧ c ≤ 6 * (n : ℤ) - 7))
        ∧ ¬((2 * (n : ℤ) ≤ c ∧ c ≤ 4 * (n : ℤ) - 4)
            ∧ (4 * (n : ℤ) - 3 ≤ c ∧ c ≤ 6 * (n : ℤ) - 7)))
    ∧ (∀ x y, x < n → y < n →
        (((∃ c ∈ cellSubset n x y, 2 * (n : ℤ) ≤ c ∧ c ≤ 4 * (n : ℤ) - 4)
            ↔ (2 * (n : ℤ) ≤ diagCell n x y ∧ diagCell n x y ≤ 4 * (n : ℤ) - 4))
          ∧ ((∃ c ∈ cellSubset n x y, 4 * (n : ℤ) - 3 ≤ c ∧ c ≤ 6 * (n : ℤ) - 7)
            ↔ (4 * (n : ℤ) - 3 ≤ antiDiagCell n x y
                ∧ antiDiagCell n x y ≤ 6 * (n : ℤ) - 7)))) := by
  refine ⟨?_, ?_, ?_⟩
  · intro s hs c hc
    rw [build_subsets, List.mem_flatMap] at hs
    rcases hs with ⟨x, hxmem, hs2⟩
    rw [List.mem_map] at hs2
    rcases hs2 with ⟨y, hymem, rfl⟩
    rw [List.mem_range] at hxmem hymem
    rw [mem_cellSubset] at hc
    rcases hc with h | h | ⟨hd, h⟩ | ⟨ha, h⟩ <;> subst h <;>
      (try simp only [diagCell, antiDiagCell] at *) <;> omega
  · intro c
    omega
  · intro x y hx hy
    constructor
    · constructor
      · rintro ⟨c, hc, hrange⟩
        rw [mem_cellSubset] at hc
        rcases hc with h | h | ⟨hd, h⟩ | ⟨ha, h⟩ <;> subst h <;>
          (try simp only [diagCell, antiDiagCell] at *) <;> omega
      · intro hd
        exact ⟨diagCell n x y,
          (mem_cellSubset n x y _).2 (Or.inr (Or.inr (Or.inl ⟨hd, rfl⟩))), hd⟩
    · constructor
      · rintro ⟨c, hc, hrange⟩
        rw [mem_cellSubset] at hc
        rcases hc with h | h | ⟨hd, h⟩ | ⟨ha, h⟩ <;> subst h <;>
          (try simp only [diagCell, antiDiagCell] at *) <;> omega
      · intro ha
        exact ⟨antiDiagCell n x y,
          (mem_cellSubset n x y _).2 (Or.inr (Or.inr (Or.inr ⟨ha, rfl⟩))), ha⟩

/-- Witness for C6: cell `(0, 1)` of the `n = 4` board has a diagonal
constraint ID in the declared range. -/
theorem build_subsets_id_ranges_witness :
    ∃ c ∈ cellSubset 4 0 1, 2 * ((4 : ℕ) : ℤ) ≤ c ∧ c ≤ 4 * ((4 : ℕ) : ℤ) - 4 :=
  (((build_subsets_id_ranges 4 (by decide)).2.2 0 1 (by decide) (by decide)).1).2
    (by decide)

/-- C9: the subset at list index `x * n + y` of `build_subsets n` is the
subset of board cell `(x, y)`; it contains column ID `x` and row ID
`y + n`; distinct cells give distinct subsets, so decision-variable
indices identify board cells uniquely. -/
theorem build_subsets_indexing (n x y : ℕ) (hx : x < n) (hy : y < n) :
    (build_subsets n)[x * n + y]? = some (cellSubset n x y)
    ∧ (x : ℤ) ∈ cellSubset n x y
    ∧ ((y : ℤ) + n) ∈ cellSubset n x y
    ∧ (∀ x' y', x' < n → y' < n →
        cellSubset n x y = cellSubset n x' y' → x = x' ∧ y = y')
    ∧ (∀ i j, i < n * n → j < n * n →
        (build_subsets n)[i]? = (build_subsets n)[j]? → i = j) := by
  refine ⟨build_subsets_get n x y hx hy,
    (mem_cellSubset n x y _).2 (Or.inl rfl),
    (mem_cellSubset n x y _).2 (Or.inr (Or.inl rfl)),
    fun x' y' hx' hy' h => cellSubset_inj n x y x' y' hx hy hx' hy' h,
    ?_⟩
  intro i j hi hj hij
  have hpos : 0 < n := Nat.lt_of_le_of_lt (Nat.zero_le x) hx
  have hdi : i / n < n := (Nat.div_lt_iff_lt_mul hpos).2 hi
  have hdj : j / n < n := (Nat.div_lt_iff_lt_mul hpos).2 hj
  have hmi : i % n < n := Nat.mod_lt i hpos
  have hmj : j % n < n := Nat.mod_lt j hpos
  have hieq : i / n * n + i % n = i := by
    rw [Nat.mul_comm (i / n) n]
    exact Nat.div_add_mod i n
  have hjeq : j / n * n + j % n = j := by
    rw [Nat.mul_comm (j / n) n]
    exact Nat.div_add_mod j n
  rw [← hieq, ← hjeq, build_subsets_get n (i / n) (i % n) hdi hmi,
    build_subsets_get n (j / n) (j % n) hdj hmj] at hij
  have hcell := Option.some.inj hij
  rcases cellSubset_inj n (i / n) (i % n) (j / n) (j % n) hdi hmi hdj hmj hcell
    with ⟨he1, he2⟩
  rw [← hieq, ← hjeq, he1, he2]

/-- Witness for C9 at `n = 4`, cell `(0, 1)`. -/
theorem build_subsets_indexing_witness :
    (build_subsets 4)[0 * 4 + 1]? = some (cellSubset 4 0 1) :=
  (build_subsets_indexing 4 0 1 (by decide) (by decide)).1

/-- C2 (evaluation of the code at a failing input): the test placement
with a duplicated column is flagged invalid, as the claim requires; but
the placement of queens at cells `(0,1)`, `(1,2)`, `(2,0)`, `(3,3)` of
the `n = 4` board — whose subsets are exactly `build_subsets 4` entries —
has anti-diagonal ID `16 ∈ [2n, 6n-7]` covered twice and is nevertheless
accepted, because the diagonal loop of `is_valid_solution` stops at
`4*n - 6` instead of `6*n - 6`. -/
theorem is_valid_solution_anti_diag_gap :
    is_valid_solution 4 [{0, 10, 7}, {0, 9, 6, 17}, {16, 2, 12, 7}, {11, 13, 3, 5}] = false
    ∧ is_valid_solution 4 [{0, 5, 8, 16}, {1, 6, 10, 16}, {2, 4, 9, 13}, {3, 7, 15}] = true
    ∧ countId [{0, 5, 8, 16}, {1, 6, 10, 16}, {2, 4, 9, 13}, {3, 7, 15}] 16 = 2
    ∧ (2 * 4 ≤ (16 : ℤ) ∧ (16 : ℤ) ≤ 6 * 4 - 7)
    ∧ [{(0 : ℤ), 5, 8, 16}, {1, 6, 10, 16}, {2, 4, 9, 13}, {3, 7, 15}]
        = [cellSubset 4 0 1, cellSubset 4 1 2, cellSubset 4 2 0, cellSubset 4 3 3] := by
  decide

theorem gsi_cons_none (line : String) (rest : List String) (hp : pyInt line = none) :
    get_sanitized_input (line :: rest)
      = ("Enter the number of queens to place (n > 0):"
          :: "Input type must be int." :: (get_sanitized_input rest).1,
        (get_sanitized_input rest).2) := by
  simp only [get_sanitized_input, hp]

theorem gsi_cons_nonpos (line : String) (rest : List String) (m : ℤ)
    (hp : pyInt line = some m) (hm : m ≤ 0) :
    get_sanitized_input (line :: rest)
      = ("Enter the number of queens to place (n > 0):"
          :: "Input must be greater than 0." :: (get_sanitized_input rest).1,
        (get_sanitized_input rest).2) := by
  simp only [get_sanitized_input, hp]
  rw [if_pos hm]

theorem gsi_cons_large (line : String) (rest : List String) (m : ℤ)
    (hp : pyInt line = some m) (hm : ¬m ≤ 0) (h2 : 200 ≤ m) :
    get_sanitized_input (line :: rest)
      = (["Enter the number of queens to place (n > 0):",
          "Problems with large n will run very slowly."], Except.ok m) := by
  simp only [get_sanitized_input, hp]
  rw [if_neg hm, if_pos h2]

theorem gsi_cons_small (line : String) (rest : List String) (m : ℤ)
    (hp : pyInt line = some m) (hm : ¬m ≤ 0) (h2 : ¬200 ≤ m) :
    get_sanitized_input (line :: rest)
      = (["Enter the number of queens to place (n > 0):"], Except.ok m) := by
  simp only [get_sanitized_input, hp]
  rw [if_neg hm, if_neg h2]

/-- Counterexample to C8 as stated: on the input sequence consisting of
the single line `"abc"`, the loop rejects the line (printing the
diagnostic) and re-prompts, and `input()` then hits end of file, so the
uncaught `EOFError` escapes — the function does crash on a sequence of
lines supplied on standard input. -/
theorem get_sanitized_input_eof_crash :
    get_sanitized_input ["abc"]
      = (["Enter the number of queens to place (n > 0):",
          "Input type must be int.",
          "Enter the number of queens to place (n > 0):"],
        Except.error "EOFError: EOF when reading a line") := rfl

/-- C8 (amended): `get_sanitized_input` never returns a value that is
not a positive integer; a line that does not parse as an integer, or
parses to an integer `≤ 0`, makes the loop print the corresponding
diagnostic after the prompt and re-prompt on the remaining lines; the
first line parsing to an integer `n > 0` is returned, with the slowness
warning printed exactly when `n ≥ 200`; but when the input lines run out
while the loop is still re-prompting, the `EOFError` raised by `input()`
is not caught (the `try` block only catches `ValueError`), so the
function crashes instead of returning. -/
theorem get_sanitized_input_spec :
    (∀ lines : List String, ∀ n : ℤ,
        (get_sanitized_input lines).2 = Except.ok n → 0 < n)
    ∧ (∀ line : String, ∀ rest : List String, pyInt line = none →
        get_sanitized_input (line :: rest)
          = ("Enter the number of queens to place (n > 0):"
              :: "Input type must be int." :: (get_sanitized_input rest).1,
            (get_sanitized_input rest).2))
    ∧ (∀ line : String, ∀ rest : List String, ∀ m : ℤ,
        pyInt line = some m → m ≤ 0 →
        get_sanitized_input (line :: rest)
          = ("Enter the number of queens to place (n > 0):"
              :: "Input must be greater than 0." :: (get_sanitized_input rest).1,
            (get_sanitized_input rest).2))
    ∧ (∀ line : String, ∀ rest : List String, ∀ n : ℤ,
        pyInt line = some n → 0 < n →
        (get_sanitized_input (line :: rest)).2 = Except.ok n
        ∧ ("Problems with large n will run very slowly."
              ∈ (get_sanitized_input (line :: rest)).1 ↔ 200 ≤ n))
    ∧ get_sanitized_input []
        = (["Enter the number of queens to place (n > 0):"],
          Except.error "EOFError: EOF when reading a line") := by
  refine ⟨?_, ?_, ?_, ?_, rfl⟩
  · intro lines
    induction lines with
    | nil =>
      intro n h
      simp only [get_sanitized_input] at h
      exact absurd h (Except.noConfusion)
    | cons line rest ih =>
      intro n h
      cases hp : pyInt line with
      | none =>
        rw [gsi_cons_none line rest hp] at h
        exact ih n h
      | some m =>
        by_cases hm : m ≤ 0
        · rw [gsi_cons_nonpos line rest m hp hm] at h
          exact ih n h
        · by_cases h2 : 200 ≤ m
          · rw [gsi_cons_large line rest m hp hm h2] at h
            have := Except.ok.inj h
            omega
          · rw [gsi_cons_small line rest m hp hm h2] at h
            have := Except.ok.inj h
            omega
  · intro line rest hp
    exact gsi_cons_none line rest hp
  · intro line rest m hp hm
    exact gsi_cons_nonpos line rest m hp hm
  · intro line rest n hp hn
    by_cases h2 : 200 ≤ n
    · rw [gsi_cons_large line rest n hp (by omega) h2]
      refine ⟨rfl, ?_⟩
      constructor
      · intro _
        exact h2
      · intro _
        simp
    · rw [gsi_cons_small line rest n hp (by omega) h2]
      refine ⟨rfl, ?_⟩
      constructor
      · intro hmem
        exfalso
        simp only [List.mem_singleton] at hmem
        exact absurd hmem (by decide)
      · intro h
        exact absurd h h2

/-- Witness for C8 (amended): the single input line `"5"` is accepted
with no slowness warning. -/
theorem get_sanitized_input_spec_witness :
    (get_sanitized_input ["5"]).2 = Except.ok 5
    ∧ ("Problems with large n will run very slowly."
          ∈ (get_sanitized_input ["5"]).1 ↔ 200 ≤ (5 : ℤ)) :=
  get_sanitized_input_spec.2.2.2.1 "5" [] 5 (by decide) (by decide)

/-- C10: `plot_chessboard` never reads its `queens` parameter — the
queens it draws come from the module-level global `solution` — so its
result is the same for any two values of the parameter in the same
global environment, and when no global named `solution` is defined it
raises `NameError` instead of producing the image file. -/
theorem plot_chessboard_ignores_queens (n : ℕ) (q1 q2 : List (Finset ℤ))
    (g : Option (List (Finset ℤ))) :
    plot_chessboard n q1 g = plot_chessboard n q2 g
    ∧ plot_chessboard n q1 none
        = Except.error "NameError: name 'solution' is not defined" := by
  constructor
  · cases g <;> rfl
  · rfl

